import Mathlib

/-!
Verification development for the hashserver repository: a content-addressed
HTTP storage server.  The definitions below are a shallow embedding of the
relevant parts of `hashserver.py` and `hash_file_response.py`:

* the digest codec `parse_checksum` (hash_file_response.py),
* the on-disk state as a finite map from path strings to byte lists,
* the upload handler `put_file` (hashserver.py),
* the retrieval pipeline `HashFileResponse.__call__` (hash_file_response.py),
* the batched existence query `has_buffers` (hashserver.py),
* the promise registry wait logic `PromiseRegistry.wait_for` together with
  the `PromiseAwareResponseMixin` retry loop (hashserver.py).

Python machine-level details that the theorems do not depend on (chunked
file IO, HTTP framing, thread pools) are abstracted; the hash algorithm is a
parameter `hash : List Nat → String` so that every theorem holds for any
configured checksum algorithm.  Time is modelled as a `Nat` for the promise
TTL logic.
-/

set_option autoImplicit false

/-! ## Python values and the digest codec (`parse_checksum`) -/

/-- The input/output universe of `parse_checksum`: Python `bytes`
(a list of byte values), `str` (a list of characters), `None`, and a
representative of every other type. -/
inductive PyVal where
  | pyBytes (bs : List Nat)
  | pyStr (s : List Char)
  | pyNone
  | pyOther
  deriving DecidableEq, Repr

/-- The exceptions `parse_checksum` can raise: `ValueError` (with message)
and `TypeError`. -/
inductive PyErr where
  | valueError (msg : String)
  | typeError
  deriving DecidableEq, Repr

/-- The sixteen lowercase hexadecimal digits, in value order. -/
def hexDigits : List Char := "0123456789abcdef".data

/-- Value of a single hexadecimal character, upper or lower case
(the digit table of Python's `bytes.fromhex`): the lowercase digits paired
with their position, plus the six uppercase letters. -/
def hexTable : List (Char × Nat) :=
  hexDigits.enum.map (fun p => (p.2, p.1)) ++
    ("ABCDEF".data.enum.map (fun p => (p.2, p.1 + 10)))

/-- `hexVal? c` is the value of `c` as a hexadecimal digit, if it is one. -/
def hexVal? (c : Char) : Option Nat :=
  (hexTable.find? (fun p => p.1 = c)).map (fun p => p.2)

/-- Lowercase hexadecimal digit for a value below 16 (as printed by
Python's `bytes.hex`). -/
def toHexDigit (n : Nat) : Char :=
  hexDigits.getD n '0'

/-- The two lowercase hexadecimal digits of one byte, as printed by
Python's `bytes.hex`. -/
def byteHex (b : Nat) : List Char :=
  [toHexDigit (b / 16), toHexDigit (b % 16)]

/-- Python's `bytes.hex()`: lowercase hexadecimal rendering of a byte
string. -/
def bytesHex : List Nat → List Char
  | [] => []
  | b :: rest => byteHex b ++ bytesHex rest

/-- The characters Python's `Py_ISSPACE` treats as ASCII whitespace
(skipped by `bytes.fromhex` since Python 3.7). -/
def isSpaceChar (c : Char) : Bool :=
  c = ' ' || c = '\t' || c = '\n' || c = '\x0b' || c = '\x0c' || c = '\r'

/-- Python's `bytes.fromhex`: skip ASCII whitespace, then decode two
hexadecimal digits per byte; a non-hexadecimal character where a digit is
expected — including whitespace between the two digits of one byte, or a
lone trailing digit — is an error. -/
def fromHex : List Char → Option (List Nat)
  | [] => some []
  | [c] => if isSpaceChar c then some [] else none
  | c1 :: c2 :: rest =>
    if isSpaceChar c1 then fromHex (c2 :: rest)
    else
      match hexVal? c1, hexVal? c2, fromHex rest with
      | some h, some l, some bs => some ((16 * h + l) :: bs)
      | _, _, _ => none

/-- Shallow embedding of `parse_checksum` (hash_file_response.py, lines
14-36): bytes are rendered to hex, strings are length-checked and decoded,
the decoded bytes must be exactly 32 long, `None` is passed through, and
any other type raises `TypeError`. -/
def parse_checksum (x : PyVal) (asBytes : Bool) : Except PyErr PyVal :=
  let x1 := match x with
    | PyVal.pyBytes bs => PyVal.pyStr (bytesHex bs)
    | v => v
  match x1 with
  | PyVal.pyStr s =>
    if s.length % 2 = 1 then Except.error (PyErr.valueError "Wrong length")
    else
      match fromHex s with
      | none =>
        Except.error (PyErr.valueError "non-hexadecimal number found in fromhex() arg")
      | some bs =>
        if bs.length = 32 then
          if asBytes then Except.ok (PyVal.pyBytes bs)
          else Except.ok (PyVal.pyStr (bytesHex bs))
        else Except.error (PyErr.valueError "Wrong length")
  | PyVal.pyNone => Except.ok PyVal.pyNone
  | _ => Except.error PyErr.typeError

/-! ## The on-disk state

The server's view of the filesystem is a finite map from path strings to
file contents (byte lists).  Directories and file metadata other than size
are not modelled; a stat succeeds exactly when the path is mapped. -/

/-- Byte strings. -/
abbrev Bytes := List Nat

/-- A filesystem: an association list from paths to file contents. -/
abbrev FS := List (String × Bytes)

/-- Contents of the file at path `p`, if it exists. -/
def fsFind : FS → String → Option Bytes
  | [], _ => none
  | (q, c) :: rest, p => if q = p then some c else fsFind rest p

/-- Remove the file at path `p` (`unlink`; removing an absent file is a
no-op). -/
def fsErase : FS → String → FS
  | [], _ => []
  | (q, c) :: rest, p => if q = p then fsErase rest p else (q, c) :: fsErase rest p

/-- Create or overwrite the file at path `p` with contents `c`. -/
def fsInsert (fs : FS) (p : String) (c : Bytes) : FS :=
  (p, c) :: fsErase fs p

/-- `os.stat(...).st_size`: the size of the file at `p`, if it exists. -/
def statSize (fs : FS) (p : String) : Option Nat :=
  (fsFind fs p).map List.length

theorem fsFind_fsErase (fs : FS) (p q : String) :
    fsFind (fsErase fs p) q = if p = q then none else fsFind fs q := by
  induction fs with
  | nil => simp [fsErase, fsFind]
  | cons hd tl ih =>
    obtain ⟨r, c⟩ := hd
    by_cases hrp : r = p <;> by_cases hrq : r = q <;>
      simp_all [fsErase, fsFind]
    · exact fun hpq => hrp hpq.symm

theorem fsFind_fsInsert (fs : FS) (p q : String) (c : Bytes) :
    fsFind (fsInsert fs p c) q = if p = q then some c else fsFind fs q := by
  by_cases h : p = q <;> simp [fsInsert, fsFind, h, fsFind_fsErase]

/-! ## Lemmas about the hexadecimal codec -/

theorem hexVal?_lt_sixteen {c : Char} {n : Nat} (h : hexVal? c = some n) : n < 16 := by
  unfold hexVal? at h
  cases hfind : hexTable.find? (fun p => p.1 = c) with
  | none => rw [hfind] at h; simp at h
  | some p =>
    rw [hfind] at h
    simp at h
    have hmem := List.mem_of_find?_eq_some hfind
    subst h
    have hall : hexTable.all (fun q => decide (q.2 < 16)) = true := by decide
    exact of_decide_eq_true (List.all_eq_true.mp hall p hmem)

theorem hexVal?_toHexDigit {n : Nat} (h : n < 16) : hexVal? (toHexDigit n) = some n := by
  interval_cases n <;> decide

theorem toHexDigit_mem (n : Nat) : toHexDigit n ∈ hexDigits := by
  by_cases h : n < 16
  · interval_cases n <;> decide
  · have h16 : hexDigits.length ≤ n := by
      have hlen : hexDigits.length = 16 := rfl
      omega
    rw [toHexDigit, List.getD_eq_default _ _ h16]
    decide

theorem hexVal?_not_space {c : Char} {n : Nat} (h : hexVal? c = some n) :
    isSpaceChar c = false := by
  unfold hexVal? at h
  cases hfind : hexTable.find? (fun p => p.1 = c) with
  | none => rw [hfind] at h; simp at h
  | some p =>
    have hmem := List.mem_of_find?_eq_some hfind
    have hpc : p.1 = c := by simpa using List.find?_some hfind
    have hall : hexTable.all (fun q => !isSpaceChar q.1) = true := by decide
    have hns := List.all_eq_true.mp hall p hmem
    rw [← hpc]
    simpa using hns

theorem toHexDigit_not_space (n : Nat) : isSpaceChar (toHexDigit n) = false := by
  have hmem := toHexDigit_mem n
  have hall : hexDigits.all (fun c => !isSpaceChar c) = true := by decide
  have := List.all_eq_true.mp hall _ hmem
  simpa using this

theorem fromHex_byteHex_append {b : Nat} (hb : b < 256) (rest : List Char) :
    fromHex (byteHex b ++ rest) = (fromHex rest).map (fun bs => b :: bs) := by
  have h1 : b / 16 < 16 := by omega
  have h2 : b % 16 < 16 := by omega
  show fromHex (toHexDigit (b / 16) :: toHexDigit (b % 16) :: rest) = _
  rw [fromHex, if_neg (by simp [toHexDigit_not_space]),
    hexVal?_toHexDigit h1, hexVal?_toHexDigit h2]
  cases hr : fromHex rest <;> simp
  omega

theorem fromHex_bytesHex {bs : List Nat} (h : ∀ b ∈ bs, b < 256) :
    fromHex (bytesHex bs) = some bs := by
  induction bs with
  | nil => rfl
  | cons b rest ih =>
    have hb : b < 256 := h b (by simp)
    rw [bytesHex, fromHex_byteHex_append hb,
      ih (fun x hx => h x (by simp [hx]))]
    rfl

theorem bytesHex_length (bs : List Nat) : (bytesHex bs).length = 2 * bs.length := by
  induction bs with
  | nil => rfl
  | cons b rest ih => simp [bytesHex, byteHex, ih]; omega

theorem bytesHex_mem {bs : List Nat} : ∀ c ∈ bytesHex bs, c ∈ hexDigits := by
  induction bs with
  | nil => simp [bytesHex]
  | cons b rest ih =>
    intro c hc
    rw [bytesHex] at hc
    rcases List.mem_append.mp hc with h | h
    · rcases List.mem_cons.mp h with rfl | h2
      · exact toHexDigit_mem _
      · rcases List.mem_cons.mp h2 with rfl | h3
        · exact toHexDigit_mem _
        · simp at h3
    · exact ih c h

theorem fromHex_length_filter : ∀ {s : List Char} {bs : List Nat},
    fromHex s = some bs →
    (s.filter (fun c => !isSpaceChar c)).length = 2 * bs.length
  | [], bs, h => by
    simp [fromHex] at h
    simp [← h]
  | [c], bs, h => by
    by_cases hsp : isSpaceChar c
    · have hb : bs = [] := by simpa [fromHex, hsp] using h.symm
      subst hb
      simp [List.filter_cons, hsp]
    · simp [fromHex, hsp] at h
  | c1 :: c2 :: rest, bs, h => by
    by_cases hsp : isSpaceChar c1
    · rw [fromHex, if_pos hsp] at h
      rw [List.filter_cons_of_neg (by simp [hsp])]
      exact fromHex_length_filter h
    · rw [fromHex, if_neg hsp] at h
      cases h1 : hexVal? c1 <;> cases h2 : hexVal? c2 <;> cases hr : fromHex rest <;>
        rw [h1, h2, hr] at h <;> simp at h
      rename_i hv lv tl
      have ih := fromHex_length_filter hr
      rw [List.filter_cons_of_pos (by simp [hexVal?_not_space h1]),
        List.filter_cons_of_pos (by simp [hexVal?_not_space h2])]
      simp [← h, ih]
      omega

theorem fromHex_chars : ∀ {s : List Char} {bs : List Nat},
    fromHex s = some bs → ∀ c ∈ s, isSpaceChar c = true ∨ (hexVal? c).isSome
  | [], _, _ => by simp
  | [c], bs, h => by
    by_cases hsp : isSpaceChar c
    · intro x hx
      rcases List.mem_singleton.mp hx with rfl
      exact Or.inl hsp
    · simp [fromHex, hsp] at h
  | c1 :: c2 :: rest, bs, h => by
    by_cases hsp : isSpaceChar c1
    · rw [fromHex, if_pos hsp] at h
      intro c hc
      rcases List.mem_cons.mp hc with rfl | hc2
      · exact Or.inl hsp
      · exact fromHex_chars h c hc2
    · rw [fromHex, if_neg hsp] at h
      cases h1 : hexVal? c1 <;> cases h2 : hexVal? c2 <;> cases hr : fromHex rest <;>
        rw [h1, h2, hr] at h <;> simp at h
      intro c hc
      rcases List.mem_cons.mp hc with rfl | hc2
      · exact Or.inr (by simp [h1])
      rcases List.mem_cons.mp hc2 with rfl | hc3
      · exact Or.inr (by simp [h2])
      · exact fromHex_chars hr c hc3

theorem fromHex_isSome : ∀ {s : List Char}, s.length % 2 = 0 →
    (∀ c ∈ s, (hexVal? c).isSome) → (fromHex s).isSome
  | [], _, _ => by simp [fromHex]
  | [c], hlen, _ => by simp at hlen
  | c1 :: c2 :: rest, hlen, hhex => by
    have hr : (fromHex rest).isSome := by
      refine fromHex_isSome ?_ (fun c hc => hhex c (by simp [hc]))
      simp at hlen
      omega
    have h1 : (hexVal? c1).isSome := hhex c1 (by simp)
    have h2 : (hexVal? c2).isSome := hhex c2 (by simp)
    obtain ⟨v1, hv1⟩ := Option.isSome_iff_exists.mp h1
    obtain ⟨v2, hv2⟩ := Option.isSome_iff_exists.mp h2
    obtain ⟨vr, hvr⟩ := Option.isSome_iff_exists.mp hr
    rw [fromHex, if_neg (by simp [hexVal?_not_space hv1]), hv1, hv2, hvr]
    simp

theorem fromHex_bytes_lt : ∀ {s : List Char} {bs : List Nat},
    fromHex s = some bs → ∀ b ∈ bs, b < 256
  | [], bs, h => by
    have hb : bs = [] := by simpa [fromHex] using h.symm
    simp [hb]
  | [c], bs, h => by
    by_cases hsp : isSpaceChar c
    · have hb : bs = [] := by simpa [fromHex, hsp] using h.symm
      simp [hb]
    · simp [fromHex, hsp] at h
  | c1 :: c2 :: rest, bs, h => by
    by_cases hsp : isSpaceChar c1
    · rw [fromHex, if_pos hsp] at h
      exact fromHex_bytes_lt h
    · rw [fromHex, if_neg hsp] at h
      cases h1 : hexVal? c1 <;> cases h2 : hexVal? c2 <;> cases hr : fromHex rest <;>
        rw [h1, h2, hr] at h <;> simp at h
      rename_i hv lv tl
      intro b hb
      rw [← h] at hb
      rcases List.mem_cons.mp hb with rfl | hb2
      · have ha := hexVal?_lt_sixteen h1
        have hbv := hexVal?_lt_sixteen h2
        omega
      · exact fromHex_bytes_lt hr b hb2

/-! ## Characterization of `parse_checksum` -/

theorem parse_checksum_bytes_eq (bs : List Nat) (ab : Bool) :
    parse_checksum (PyVal.pyBytes bs) ab = parse_checksum (PyVal.pyStr (bytesHex bs)) ab :=
  rfl

theorem parse_checksum_canonical {bs : List Nat} (hlt : ∀ b ∈ bs, b < 256)
    (h32 : bs.length = 32) :
    parse_checksum (PyVal.pyStr (bytesHex bs)) false =
      Except.ok (PyVal.pyStr (bytesHex bs)) := by
  have hl := bytesHex_length bs
  simp [parse_checksum, fromHex_bytesHex hlt, h32, hl]

theorem parse_checksum_str_ok_shape {s : List Char} {v : PyVal}
    (h : parse_checksum (PyVal.pyStr s) false = Except.ok v) :
    ∃ bs : List Nat, bs.length = 32 ∧ (∀ b ∈ bs, b < 256) ∧
      v = PyVal.pyStr (bytesHex bs) := by
  rw [parse_checksum] at h
  by_cases hodd : s.length % 2 = 1
  · simp [hodd] at h
  · cases hfh : fromHex s with
    | none => simp [hodd, hfh] at h
    | some bs =>
      by_cases h32 : bs.length = 32
      · simp [hodd, hfh, h32] at h
        exact ⟨bs, h32, fromHex_bytes_lt hfh, h.symm⟩
      · simp [hodd, hfh, h32] at h

theorem parse_checksum_ok_shape {x v : PyVal}
    (h : parse_checksum x false = Except.ok v) :
    v = PyVal.pyNone ∨ ∃ bs : List Nat, bs.length = 32 ∧ (∀ b ∈ bs, b < 256) ∧
      v = PyVal.pyStr (bytesHex bs) := by
  cases x with
  | pyNone =>
    left
    have : Except.ok (ε := PyErr) PyVal.pyNone = Except.ok v := h
    simpa using this.symm
  | pyOther => simp [parse_checksum] at h
  | pyStr s => exact Or.inr (parse_checksum_str_ok_shape h)
  | pyBytes bs0 =>
    rw [parse_checksum_bytes_eq] at h
    exact Or.inr (parse_checksum_str_ok_shape h)

/-- C8 counterexample: on input `None` — a value that is neither a 32-byte
byte string nor a 64-character hex string — `parse_checksum` does not raise
`TypeError` as the claim states; it returns `None` unchanged. -/
theorem parse_checksum_none_cex :
    parse_checksum PyVal.pyNone false = Except.ok PyVal.pyNone ∧
    parse_checksum PyVal.pyNone false ≠ Except.error PyErr.typeError := by
  refine ⟨rfl, ?_⟩
  intro h
  simp [parse_checksum] at h

/-- C8 (amended): the digest parser accepts 32-byte byte strings, and
strings whose raw length is even and which — after `bytes.fromhex`'s
ASCII-whitespace skipping — decode to exactly 32 bytes: in particular every
whitespace-free 64-character hexadecimal string of any case, but also
whitespace-padded variants such as 64 hex digits followed by two spaces.
Accepted input is returned in the canonical 64-character lowercase
hexadecimal form.  It fails with `ValueError` exactly on strings of odd raw
length, strings `bytes.fromhex` rejects, and strings decoding to a byte
count other than 32 (so, among whitespace-free strings, exactly those not
of 64 hex digits); it fails with `ValueError` on byte strings of length
other than 32; it fails with `TypeError` on inputs of any other type EXCEPT
`None`, which is passed through unchanged; and it is idempotent on any
accepted input. -/
theorem parse_checksum_amended :
    (∀ bs : List Nat, (∀ b ∈ bs, b < 256) → bs.length = 32 →
      parse_checksum (PyVal.pyBytes bs) false = Except.ok (PyVal.pyStr (bytesHex bs)) ∧
      (bytesHex bs).length = 64 ∧ ∀ c ∈ bytesHex bs, c ∈ hexDigits)
  ∧ (∀ (s : List Char) (bs : List Nat), s.length % 2 = 0 → fromHex s = some bs →
      bs.length = 32 →
      parse_checksum (PyVal.pyStr s) false = Except.ok (PyVal.pyStr (bytesHex bs)) ∧
      (bytesHex bs).length = 64 ∧ ∀ c ∈ bytesHex bs, c ∈ hexDigits)
  ∧ (∀ s : List Char, s.length = 64 → (∀ c ∈ s, (hexVal? c).isSome) →
      ∃ bs : List Nat, fromHex s = some bs ∧
        parse_checksum (PyVal.pyStr s) false = Except.ok (PyVal.pyStr (bytesHex bs)))
  ∧ (∀ s : List Char,
      (∃ m, parse_checksum (PyVal.pyStr s) false = Except.error (PyErr.valueError m)) ↔
        (s.length % 2 = 1 ∨ fromHex s = none ∨
          ∃ bs : List Nat, fromHex s = some bs ∧ bs.length ≠ 32))
  ∧ (∀ s : List Char, (∀ c ∈ s, isSpaceChar c = false) →
      (s.length ≠ 64 ∨ ∃ c ∈ s, hexVal? c = none) →
      ∃ m, parse_checksum (PyVal.pyStr s) false = Except.error (PyErr.valueError m))
  ∧ (∀ bs : List Nat, (∀ b ∈ bs, b < 256) → bs.length ≠ 32 →
      ∃ m, parse_checksum (PyVal.pyBytes bs) false = Except.error (PyErr.valueError m))
  ∧ parse_checksum PyVal.pyNone false = Except.ok PyVal.pyNone
  ∧ parse_checksum PyVal.pyOther false = Except.error PyErr.typeError
  ∧ (∀ x v, parse_checksum x false = Except.ok v →
      parse_checksum v false = Except.ok v) := by
  have hB : ∀ (s : List Char) (bs : List Nat), s.length % 2 = 0 →
      fromHex s = some bs → bs.length = 32 →
      parse_checksum (PyVal.pyStr s) false = Except.ok (PyVal.pyStr (bytesHex bs)) ∧
      (bytesHex bs).length = 64 ∧ ∀ c ∈ bytesHex bs, c ∈ hexDigits := by
    intro s bs heven hfh h32
    have hodd : ¬ s.length % 2 = 1 := by omega
    refine ⟨by simp [parse_checksum, hodd, hfh, h32], ?_, bytesHex_mem⟩
    rw [bytesHex_length, h32]
  have hD : ∀ s : List Char,
      (∃ m, parse_checksum (PyVal.pyStr s) false = Except.error (PyErr.valueError m)) ↔
        (s.length % 2 = 1 ∨ fromHex s = none ∨
          ∃ bs : List Nat, fromHex s = some bs ∧ bs.length ≠ 32) := by
    intro s
    constructor
    · rintro ⟨m, hm⟩
      by_cases hodd : s.length % 2 = 1
      · exact Or.inl hodd
      · cases hfh : fromHex s with
        | none => exact Or.inr (Or.inl rfl)
        | some bs =>
          by_cases h32 : bs.length = 32
          · simp [parse_checksum, hodd, hfh, h32] at hm
          · exact Or.inr (Or.inr ⟨bs, rfl, h32⟩)
    · intro hbad
      by_cases hodd : s.length % 2 = 1
      · exact ⟨"Wrong length", by simp [parse_checksum, hodd]⟩
      · cases hfh : fromHex s with
        | none =>
          exact ⟨"non-hexadecimal number found in fromhex() arg",
            by simp [parse_checksum, hodd, hfh]⟩
        | some bs =>
          have h32 : bs.length ≠ 32 := by
            rcases hbad with h | h | ⟨bs2, hbs2, h2⟩
            · exact absurd h hodd
            · rw [hfh] at h; exact absurd h (by simp)
            · rw [hfh] at hbs2
              injection hbs2 with hbs2
              subst hbs2
              exact h2
          exact ⟨"Wrong length", by simp [parse_checksum, hodd, hfh, h32]⟩
  refine ⟨?_, hB, ?_, hD, ?_, ?_, rfl, rfl, ?_⟩
  · intro bs hlt h32
    refine ⟨?_, ?_, bytesHex_mem⟩
    · rw [parse_checksum_bytes_eq]
      exact parse_checksum_canonical hlt h32
    · rw [bytesHex_length, h32]
  · intro s hs64 hhex
    have heven : s.length % 2 = 0 := by omega
    obtain ⟨bs, hbs⟩ := Option.isSome_iff_exists.mp (fromHex_isSome heven hhex)
    have hfilter : s.filter (fun c => !isSpaceChar c) = s :=
      List.filter_eq_self.mpr (fun c hc => by
        obtain ⟨n, hn⟩ := Option.isSome_iff_exists.mp (hhex c hc)
        simp [hexVal?_not_space hn])
    have hlen := fromHex_length_filter hbs
    rw [hfilter, hs64] at hlen
    have h32 : bs.length = 32 := by omega
    exact ⟨bs, hbs, (hB s bs heven hbs h32).1⟩
  · intro s hnsp hbad
    apply (hD s).mpr
    cases hfh : fromHex s with
    | none => exact Or.inr (Or.inl rfl)
    | some bs =>
      have hall := fromHex_chars hfh
      have hallhex : ∀ c ∈ s, (hexVal? c).isSome := fun c hc => by
        rcases hall c hc with hsp | hh
        · exact absurd hsp (by simp [hnsp c hc])
        · exact hh
      have hlen64 : s.length ≠ 64 := by
        rcases hbad with h | ⟨c, hc, hcn⟩
        · exact h
        · exact absurd (hallhex c hc) (by simp [hcn])
      have hfilter : s.filter (fun c => !isSpaceChar c) = s :=
        List.filter_eq_self.mpr (fun c hc => by simp [hnsp c hc])
      have hflen := fromHex_length_filter hfh
      rw [hfilter] at hflen
      exact Or.inr (Or.inr ⟨bs, rfl, by omega⟩)
  · intro bs hlt h32
    refine ⟨"Wrong length", ?_⟩
    have hfh := fromHex_bytesHex hlt
    have hl := bytesHex_length bs
    simp [parse_checksum, hfh, h32, hl]
  · intro x v hok
    rcases parse_checksum_ok_shape hok with rfl | ⟨bs, h32, hlt, rfl⟩
    · rfl
    · exact parse_checksum_canonical hlt h32

/-- C8 witness: the amended characterization applied to the concrete
32-byte input 0xab repeated 32 times, and to its 66-character string
rendering — 64 hex digits followed by two trailing spaces — which
`bytes.fromhex` accepts after skipping the whitespace. -/
theorem parse_checksum_amended_witness :
    parse_checksum (PyVal.pyBytes (List.replicate 32 171)) false =
      Except.ok (PyVal.pyStr (bytesHex (List.replicate 32 171))) ∧
    parse_checksum (PyVal.pyStr "abababababababababababababababababababababababababababababababab  ".data) false =
      Except.ok (PyVal.pyStr (bytesHex (List.replicate 32 171))) :=
  ⟨(parse_checksum_amended.1 (List.replicate 32 171)
      (fun b hb => by
        have := List.eq_of_mem_replicate hb
        omega)
      (by simp)).1,
   (parse_checksum_amended.2.1 "abababababababababababababababababababababababababababababababab  ".data (List.replicate 32 171)
      (by decide) (by decide) (by simp)).1⟩

/-! ## Directory layouts and paths -/

/-- The primary directory layout (`--layout flat|prefix`). -/
inductive Layout where
  | flat
  | pfx
  deriving DecidableEq, Repr

/-- `os.path.join` of one directory and one component. -/
def joinPath (a b : String) : String := a ++ "/" ++ b

/-- `checksum[:2]`: the first two characters of a digest. -/
def pfx2 (d : String) : String := (d.data.take 2).asString

/-- The two-character prefix subdirectory `$DIR/$P2` used by the prefix
layout. -/
def pfxDir (dir d : String) : String := joinPath dir (pfx2 d)

/-- Canonical on-disk path of a digest: `$DIR/$DIGEST` for flat layout,
`$DIR/$P2/$DIGEST` for prefix layout (hashserver.py, put_file lines
616-621). -/
def canonicalPath (layout : Layout) (dir d : String) : String :=
  match layout with
  | Layout.flat => joinPath dir d
  | Layout.pfx => joinPath (pfxDir dir d) d

/-- The temp file `NamedTemporaryFile(prefix=path + "-")` adjacent to a
canonical path (hashserver.py, line 643); its random suffix is modelled as
the fixed suffix "tmp". -/
def tempPath (p : String) : String := p ++ "-tmp"

/-- Path of the `.HASHSERVER_PREFIX` layout marker file under a directory
root. -/
def markerPath (e : String) : String := e ++ "/.HASHSERVER_PREFIX"

/-! ## The upload handler `put_file`

Shallow embedding of `put_file` (hashserver.py, lines 611-677).  The
request body is a list of chunks; the configured hash algorithm is the
parameter `hash`.  Concurrency is represented by two explicit inputs:
`inflight`, the `_current_put_requests` set at the time of the request, and
`interfere`, the contents of a file that another process publishes at the
canonical path while this request is streaming (or `none`).  A mid-body
client disconnect is the input `disconnect`.  The `trace` output lists the
file-level filesystem operations the handler performs, in order:
`NamedTemporaryFile(prefix=path + "-")` (line 643) is recorded as a create
at `tempPath path`, one write per streamed chunk, and an unlink when the
context manager deletes it on exit; the prefix-layout directory check and
`mkdir` (lines 628-631) are recorded as a stat and a mkdir of the prefix
subdirectory — the mkdir is recorded even when the directory already
exists, which only ever adds an operation to the trace, never hides one.
The temp file and the directory leave no mark on the file map `fs`: the
temp file is deleted on every path out of the `async with` block, and
directories are not files. -/

/-- A file-level filesystem operation.  `waitLockEv` and `touchEv` are the
lock-wait and lock-touch operations of the write-side lockfile discipline
described by the spec; they are part of the vocabulary so that their
absence from `put_file`'s trace is expressible. -/
inductive PutEv where
  | statEv (p : String)
  | mkdirEv (p : String)
  | createEv (p : String)
  | writeEv (p : String)
  | linkEv (p : String)
  | unlinkEv (p : String)
  | waitLockEv (p : String)
  | touchEv (p : String)
  deriving DecidableEq, Repr

/-- The path an operation targets. -/
def PutEv.path : PutEv → String
  | statEv p => p
  | mkdirEv p => p
  | createEv p => p
  | writeEv p => p
  | linkEv p => p
  | unlinkEv p => p
  | waitLockEv p => p
  | touchEv p => p

/-- Whether an operation is one of the two lockfile-discipline
operations. -/
def PutEv.isLockOp : PutEv → Bool
  | waitLockEv _ => true
  | touchEv _ => true
  | _ => false

/-- Result of a `put_file` request: HTTP status, response body, resulting
filesystem, whether the matching promise was resolved, and the operation
trace. -/
structure PutResult where
  status : Nat
  body : String
  fs : FS
  resolvedPromise : Bool
  trace : List PutEv
  deriving DecidableEq, Repr

/-- The hash of a streamed body: the incremental checksum over all chunks
equals the hash of their concatenation. -/
def streamBytes (chunks : List Bytes) : Bytes :=
  chunks.foldl (fun acc c => acc ++ c) []

/-- Shallow embedding of `put_file` (hashserver.py, lines 611-677):
1. if the canonical path exists, resolve the promise and return 201
   (line 623);
2. else, in prefix layout, check for the prefix subdirectory and create it
   (lines 628-631);
3. if the digest is in `_current_put_requests`, return 202 (line 638);
4. else stream the body into a `NamedTemporaryFile` adjacent to the
   canonical path while hashing (lines 643-652); on client disconnect
   return 400 and unlink the canonical path (the `finally` cleanup, lines
   668-672), with the context manager deleting the temp file;
5. on checksum mismatch return 400 "Incorrect checksum" and unlink the
   canonical path likewise;
6. else hard-link the temp file to the canonical path unless it appeared
   meanwhile (`FileExistsError` is ignored, lines 655-661), resolve the
   promise and return 200 "OK"; the temp file is deleted on exit. -/
def put_file (hash : Bytes → String) (layout : Layout) (dir : String)
    (inflight : List String) (d : String) (chunks : List Bytes)
    (disconnect : Bool) (interfere : Option Bytes) (fs : FS) : PutResult :=
  let path := canonicalPath layout dir d
  if (fsFind fs path).isSome then
    ⟨201, "", fs, true, [PutEv.statEv path]⟩
  else
    let dirOps : List PutEv :=
      match layout with
      | Layout.pfx => [PutEv.statEv (pfxDir dir d), PutEv.mkdirEv (pfxDir dir d)]
      | Layout.flat => []
    if inflight.contains d then
      ⟨202, "", fs, false, PutEv.statEv path :: dirOps⟩
    else
      let tmp := tempPath path
      let streamOps := PutEv.createEv tmp ::
        List.replicate chunks.length (PutEv.writeEv tmp)
      let fs1 := match interfere with
        | some c => fsInsert fs path c
        | none => fs
      if disconnect then
        ⟨400, "", fsErase fs1 path, false,
          PutEv.statEv path :: dirOps ++ streamOps ++
            [PutEv.unlinkEv tmp, PutEv.unlinkEv path]⟩
      else if hash (streamBytes chunks) = d then
        if (fsFind fs1 path).isSome then
          ⟨200, "OK", fs1, true,
            PutEv.statEv path :: dirOps ++ streamOps ++
              [PutEv.statEv path, PutEv.unlinkEv tmp]⟩
        else
          ⟨200, "OK", fsInsert fs1 path (streamBytes chunks), true,
            PutEv.statEv path :: dirOps ++ streamOps ++
              [PutEv.statEv path, PutEv.linkEv path, PutEv.unlinkEv tmp]⟩
      else
        ⟨400, "Incorrect checksum", fsErase fs1 path, false,
          PutEv.statEv path :: dirOps ++ streamOps ++
            [PutEv.unlinkEv tmp, PutEv.unlinkEv path]⟩

/-! ## Claims about `put_file` -/

/-- C1: for every PUT with any streaming body, `put_file` creates the file
at the canonical path only if the hash of the complete streamed body equals
the digest; on a mismatch the response is 400 with body
"Incorrect checksum", nothing is ever linked under the canonical name, and
the canonical path stays absent. -/
theorem put_file_checksum_gate (hash : Bytes → String) (layout : Layout)
    (dir : String) (inflight : List String) (d : String) (chunks : List Bytes)
    (fs : FS)
    (habsent : fsFind fs (canonicalPath layout dir d) = none)
    (hfree : d ∉ inflight) :
    (hash (streamBytes chunks) ≠ d →
      (put_file hash layout dir inflight d chunks false none fs).status = 400 ∧
      (put_file hash layout dir inflight d chunks false none fs).body =
        "Incorrect checksum" ∧
      fsFind (put_file hash layout dir inflight d chunks false none fs).fs
        (canonicalPath layout dir d) = none ∧
      ∀ e ∈ (put_file hash layout dir inflight d chunks false none fs).trace,
        e ≠ PutEv.linkEv (canonicalPath layout dir d)) ∧
    (∀ c, fsFind (put_file hash layout dir inflight d chunks false none fs).fs
        (canonicalPath layout dir d) = some c →
      hash (streamBytes chunks) = d ∧ c = streamBytes chunks) := by
  constructor
  · intro hneq
    refine ⟨?_, ?_, ?_, ?_⟩
    · simp [put_file, habsent, hfree, hneq]
    · simp [put_file, habsent, hfree, hneq]
    · simp [put_file, habsent, hfree, hneq, fsFind_fsErase]
    · cases layout <;>
        simp [put_file, habsent, hfree, hneq, List.mem_replicate] <;>
        (rintro a ha
         cases a <;> simp_all)
  · intro c hc
    by_cases heq : hash (streamBytes chunks) = d
    · simp [put_file, habsent, hfree, heq, fsFind_fsInsert] at hc
      exact ⟨heq, hc.symm⟩
    · exfalso
      simp [put_file, habsent, hfree, heq, fsFind_fsErase] at hc

/-- C1 witness: the checksum gate at a concrete mismatching upload. -/
theorem put_file_checksum_gate_witness :
    (put_file (fun _ => "ff") Layout.flat "D" [] "ab" [[1]] false none []).status
      = 400 ∧
    (put_file (fun _ => "ff") Layout.flat "D" [] "ab" [[1]] false none []).body
      = "Incorrect checksum" := by
  have h := (put_file_checksum_gate (fun _ => "ff") Layout.flat "D" [] "ab" [[1]]
    [] rfl (by decide)).1 (by decide)
  exact ⟨h.1, h.2.1⟩

/-- C4 counterexample: with digest "ab" both in the in-flight set and
already present at the canonical path "D/ab", `put_file` returns 201, not
202 as the claim states: the existence check runs before the in-flight
check. -/
theorem put_file_order_cex :
    (put_file (fun _ => "ab") Layout.flat "D" ["ab"] "ab" [] false none
      [("D/ab", [1])]).status = 201 ∧
    (put_file (fun _ => "ab") Layout.flat "D" ["ab"] "ab" [] false none
      [("D/ab", [1])]).status ≠ 202 := by
  decide

/-- C4 (amended): `put_file` performs the canonical-path existence check
BEFORE the in-flight de-dup check: a digest whose file already exists
yields 201 even when it is in-flight, and 202 is returned when the file is
absent and the digest is in-flight. -/
theorem put_file_exists_check_first (hash : Bytes → String) (layout : Layout)
    (dir : String) (inflight : List String) (d : String) (chunks : List Bytes)
    (disconnect : Bool) (interfere : Option Bytes) (fs : FS) :
    ((fsFind fs (canonicalPath layout dir d)).isSome →
      (put_file hash layout dir inflight d chunks disconnect interfere fs).status
        = 201) ∧
    (fsFind fs (canonicalPath layout dir d) = none → d ∈ inflight →
      (put_file hash layout dir inflight d chunks disconnect interfere fs).status
        = 202) := by
  constructor
  · intro h1
    simp [put_file, h1]
  · intro h1 h2
    simp [put_file, h1, h2]

/-- C4 witness: the amended ordering at concrete states (file present and
in-flight gives 201; file absent and in-flight gives 202). -/
theorem put_file_exists_check_first_witness :
    (put_file (fun _ => "ab") Layout.flat "D" ["ab"] "ab" [] false none
      [("D/ab", [1])]).status = 201 ∧
    (put_file (fun _ => "ab") Layout.flat "D" ["ab"] "ab" [] false none
      []).status = 202 :=
  ⟨(put_file_exists_check_first (fun _ => "ab") Layout.flat "D" ["ab"] "ab" []
      false none [("D/ab", [1])]).1 (by decide),
   (put_file_exists_check_first (fun _ => "ab") Layout.flat "D" ["ab"] "ab" []
      false none []).2 rfl (by decide)⟩

/-- C3 counterexample: a PUT that reaches the writing phase while both the
global lockfile "D/.LOCK" and the file-specific lockfile "D/ab.LOCK" exist:
`put_file` succeeds without unlinking either lockfile (both survive with
their original contents), performs no lock wait and no lock touch, and
every operation in its trace — the exists-check stat, the temp-file create
and write, the post-stream stat, the hard link, and the temp-file unlink —
targets the canonical path "D/ab" or its temp file "D/ab-tmp", never a
lockfile path. -/
theorem put_file_lock_cex :
    (put_file (fun _ => "ab") Layout.flat "D" [] "ab" [[7]] false none
      [("D/.LOCK", []), ("D/ab.LOCK", [])]).status = 200 ∧
    fsFind (put_file (fun _ => "ab") Layout.flat "D" [] "ab" [[7]] false none
      [("D/.LOCK", []), ("D/ab.LOCK", [])]).fs "D/.LOCK" = some [] ∧
    fsFind (put_file (fun _ => "ab") Layout.flat "D" [] "ab" [[7]] false none
      [("D/.LOCK", []), ("D/ab.LOCK", [])]).fs "D/ab.LOCK" = some [] ∧
    (put_file (fun _ => "ab") Layout.flat "D" [] "ab" [[7]] false none
      [("D/.LOCK", []), ("D/ab.LOCK", [])]).trace =
      [PutEv.statEv "D/ab", PutEv.createEv "D/ab-tmp", PutEv.writeEv "D/ab-tmp",
       PutEv.statEv "D/ab", PutEv.linkEv "D/ab", PutEv.unlinkEv "D/ab-tmp"] ∧
    ((put_file (fun _ => "ab") Layout.flat "D" [] "ab" [[7]] false none
      [("D/.LOCK", []), ("D/ab.LOCK", [])]).trace.all
        (fun e => !e.isLockOp && (e.path != "D/.LOCK") && (e.path != "D/ab.LOCK")))
      = true := by
  decide

theorem put_file_trace_events (hash : Bytes → String) (layout : Layout)
    (dir : String) (inflight : List String) (d : String) (chunks : List Bytes)
    (disconnect : Bool) (interfere : Option Bytes) (fs : FS) :
    ∀ e ∈ (put_file hash layout dir inflight d chunks disconnect interfere fs).trace,
      (e.path = canonicalPath layout dir d ∨
       e.path = tempPath (canonicalPath layout dir d) ∨
       e.path = pfxDir dir d) ∧ e.isLockOp = false := by
  by_cases h1 : (fsFind fs (canonicalPath layout dir d)).isSome <;>
    by_cases h2 : d ∈ inflight <;>
    cases interfere <;>
    by_cases h3 : disconnect <;>
    by_cases h4 : hash (streamBytes chunks) = d <;>
    cases layout <;>
    simp [put_file, h1, h2, h3, h4, fsFind_fsInsert, List.mem_replicate,
      PutEv.path, PutEv.isLockOp] <;>
    (rintro a ha
     cases a <;> simp_all [PutEv.path, PutEv.isLockOp] <;> tauto)

/-- C3 (amended): `put_file` performs no lockfile discipline at all: its
trace contains no lock wait and no lock touch, every operation in it
targets the canonical path, its adjacent temp file, or the prefix
subdirectory, and every file path other than the canonical path — the
global lockfile `$DIR/.LOCK` and the file-specific lockfile `$PATH.LOCK`
included — holds exactly what it held before the request. -/
theorem put_file_no_lock_ops (hash : Bytes → String) (layout : Layout)
    (dir : String) (inflight : List String) (d : String) (chunks : List Bytes)
    (disconnect : Bool) (interfere : Option Bytes) (fs : FS) :
    (∀ p, p ≠ canonicalPath layout dir d →
      fsFind (put_file hash layout dir inflight d chunks disconnect interfere fs).fs p
        = fsFind fs p) ∧
    (∀ e ∈ (put_file hash layout dir inflight d chunks disconnect interfere fs).trace,
      e.isLockOp = false) ∧
    (∀ e ∈ (put_file hash layout dir inflight d chunks disconnect interfere fs).trace,
      e.path = canonicalPath layout dir d ∨
      e.path = tempPath (canonicalPath layout dir d) ∨
      e.path = pfxDir dir d) := by
  refine ⟨?_, ?_, ?_⟩
  · intro p hp
    have hne : canonicalPath layout dir d ≠ p := fun h => hp h.symm
    by_cases h1 : (fsFind fs (canonicalPath layout dir d)).isSome <;>
      by_cases h2 : d ∈ inflight <;>
      cases interfere <;>
      by_cases h3 : disconnect <;>
      by_cases h4 : hash (streamBytes chunks) = d <;>
      simp [put_file, h1, h2, h3, h4, fsFind_fsInsert, fsFind_fsErase, hne]
  · intro e he
    exact (put_file_trace_events hash layout dir inflight d chunks disconnect
      interfere fs e he).2
  · intro e he
    exact (put_file_trace_events hash layout dir inflight d chunks disconnect
      interfere fs e he).1

/-- C3 witness: the amended no-lock-operations property evaluated with the
concrete lockfile paths of the counterexample state. -/
theorem put_file_no_lock_ops_witness :
    fsFind (put_file (fun _ => "ab") Layout.flat "D" [] "ab" [[7]] false none
      [("D/.LOCK", []), ("D/ab.LOCK", [])]).fs "D/.LOCK" =
      fsFind [("D/.LOCK", []), ("D/ab.LOCK", [])] "D/.LOCK" :=
  (put_file_no_lock_ops (fun _ => "ab") Layout.flat "D" [] "ab" [[7]] false none
    [("D/.LOCK", []), ("D/ab.LOCK", [])]).1 "D/.LOCK" (by decide)

/-- C9: when a PUT that entered the in-flight set fails (checksum mismatch
or client disconnect), the cleanup unlinks the file at the CANONICAL path
itself, not only the temp file: a file published at the canonical path by
another process during the failed upload is deleted by this server. -/
theorem put_file_failure_unlinks (hash : Bytes → String) (layout : Layout)
    (dir : String) (inflight : List String) (d : String) (chunks : List Bytes)
    (disconnect : Bool) (c : Bytes) (fs : FS)
    (habsent : fsFind fs (canonicalPath layout dir d) = none)
    (hfree : d ∉ inflight)
    (hfail : disconnect = true ∨ hash (streamBytes chunks) ≠ d) :
    fsFind (put_file hash layout dir inflight d chunks disconnect (some c) fs).fs
      (canonicalPath layout dir d) = none ∧
    (put_file hash layout dir inflight d chunks disconnect (some c) fs).status
      = 400 ∧
    PutEv.unlinkEv (canonicalPath layout dir d) ∈
      (put_file hash layout dir inflight d chunks disconnect (some c) fs).trace := by
  rcases hfail with rfl | hneq
  · refine ⟨?_, ?_, ?_⟩ <;> simp [put_file, habsent, hfree, fsFind_fsErase]
  · by_cases h3 : disconnect <;>
      refine ⟨?_, ?_, ?_⟩ <;>
      simp [put_file, habsent, hfree, h3, hneq, fsFind_fsErase]

/-- C9 witness: the cleanup at a concrete failed upload during which
another process published [9] at the canonical path "D/ab". -/
theorem put_file_failure_unlinks_witness :
    fsFind (put_file (fun _ => "ff") Layout.flat "D" [] "ab" [[1]] false
      (some [9]) []).fs "D/ab" = none :=
  (put_file_failure_unlinks (fun _ => "ff") Layout.flat "D" [] "ab" [[1]] false
    [9] [] rfl (by decide) (Or.inr (by decide))).1

/-! ## The retrieval pipeline (`HashFileResponse`)

Shallow embedding of `HashFileResponse.__call__` together with
`refresh_stat_headers` (hash_file_response.py, lines 91-171).  The lock
polling loop `until_no_lock` modifies nothing; its completion is represented
by passing a (possibly different) filesystem snapshot `fs2` for the part of
the request that runs after the lock wait, while `fs1` is the snapshot for
the first resolution and hash.  Extra-directory layouts are computed at
construction time from the snapshot `fs0` (the `extra_dirs_layout` dict of
`__init__`). -/

/-- Layout of one extra directory, decided by the presence of its
`.HASHSERVER_PREFIX` marker file (hash_file_response.py, lines 81-89). -/
def extraLayoutOf (fs0 : FS) (e : String) : Layout :=
  if (fsFind fs0 (markerPath e)).isSome then Layout.pfx else Layout.flat

/-- Candidate path of a digest inside one extra directory, according to the
extra's own layout (hash_file_response.py, lines 93-98). -/
def extraCandPath (fs0 : FS) (d e : String) : String :=
  match extraLayoutOf fs0 e with
  | Layout.pfx => joinPath (joinPath e (pfx2 d)) d
  | Layout.flat => joinPath e d

/-- Path re-resolution of `refresh_stat_headers` (hash_file_response.py,
lines 91-101): keep the current path if extras are absent or the current
path exists; otherwise take the first extra whose candidate path exists,
else keep the current path. -/
def resolveExtras (fs0 fs : FS) (extras : List String) (d cur : String) : String :=
  if extras.isEmpty then cur
  else if (fsFind fs cur).isSome then cur
  else
    match extras.find? (fun e => (fsFind fs (extraCandPath fs0 d e)).isSome) with
    | some e => extraCandPath fs0 d e
    | none => cur

/-- Outcome of one GET request, before HTTP mapping. -/
inductive GetOutcome where
  | served (c : Bytes)
  | fnf (p : String)
  | corruption (p : String)
  deriving DecidableEq, Repr

/-- A GET run: its outcome, how many times the file was fully hashed, and
how many times the lock-wait loop was entered. -/
structure GetRun where
  outcome : GetOutcome
  hashCount : Nat
  lockWaits : Nat
  deriving DecidableEq, Repr

/-- The verification phase of `HashFileResponse.__call__`
(hash_file_response.py, lines 160-169): hash the resolved file; on a
mismatch wait out the locks, re-resolve, re-hash exactly once more, and
raise the File-corruption error if still mismatched. -/
def verifyPhase (hash : Bytes → String) (fs0 : FS) (extras : List String)
    (d : String) (fsRetry : FS) (p : String) (c : Bytes) (lw : Nat) : GetRun :=
  if hash c = d then ⟨GetOutcome.served c, 1, lw⟩
  else
    let p2 := resolveExtras fs0 fsRetry extras d p
    match fsFind fsRetry p2 with
    | none => ⟨GetOutcome.fnf p2, 1, lw + 1⟩
    | some c2 =>
      if hash c2 = d then ⟨GetOutcome.served c2, 2, lw + 1⟩
      else ⟨GetOutcome.corruption p2, 2, lw + 1⟩

/-- Shallow embedding of `HashFileResponse.__call__` (hash_file_response.py,
lines 151-171): resolve and stat the path (retrying once after a lock wait
when the file is not found), then verify the checksum with at most one
retry. -/
def hashFileCall (hash : Bytes → String) (fs0 : FS) (extras : List String)
    (d primary : String) (fs1 fs2 : FS) : GetRun :=
  let p1 := resolveExtras fs0 fs1 extras d primary
  match fsFind fs1 p1 with
  | none =>
    let p1b := resolveExtras fs0 fs2 extras d p1
    match fsFind fs2 p1b with
    | none => ⟨GetOutcome.fnf p1b, 0, 1⟩
    | some c => verifyPhase hash fs0 extras d fs2 p1b c 1
  | some c => verifyPhase hash fs0 extras d fs2 p1 c 0

/-- HTTP response bodies of the GET endpoint. -/
inductive RespBody where
  | plain (s : String)
  | fileBytes (b : Bytes)
  | jsonMsg (message : String)
  deriving DecidableEq, Repr

/-- The message of the corruption `RuntimeError`
(hash_file_response.py, lines 167-169). -/
def corruptionMessage (p : String) : String :=
  "File corruption: file at path " ++ p ++
    " does not have the correct SHA3-256 checksum."

/-- Mapping of a GET outcome to an HTTP response: a served file streams its
bytes with status 200, a missing file maps to 404 "Not found"
(`filenotfound_exception_handler`, hashserver.py lines 394-396), and the
corruption `RuntimeError` maps to a 400 JSON body carrying the message
(`runtime_exception_handler`, hashserver.py lines 399-404). -/
def toHttp : GetOutcome → Nat × RespBody
  | GetOutcome.served c => (200, RespBody.fileBytes c)
  | GetOutcome.fnf _ => (404, RespBody.plain "Not found")
  | GetOutcome.corruption p => (400, RespBody.jsonMsg (corruptionMessage p))

/-- C2: a GET whose resolved file hashes to a value different from the
digest waits out the locks, re-resolves, re-hashes exactly once more, and —
if the second hash still differs — responds 400 with a JSON body whose
message starts with "File corruption". -/
theorem get_corruption_retry (hash : Bytes → String) (fs0 fs1 fs2 : FS)
    (extras : List String) (d primary : String) (c c2 : Bytes)
    (h1 : fsFind fs1 (resolveExtras fs0 fs1 extras d primary) = some c)
    (h2 : hash c ≠ d)
    (h3 : fsFind fs2 (resolveExtras fs0 fs2 extras d
      (resolveExtras fs0 fs1 extras d primary)) = some c2)
    (h4 : hash c2 ≠ d) :
    hashFileCall hash fs0 extras d primary fs1 fs2 =
      ⟨GetOutcome.corruption (resolveExtras fs0 fs2 extras d
        (resolveExtras fs0 fs1 extras d primary)), 2, 1⟩ ∧
    toHttp (hashFileCall hash fs0 extras d primary fs1 fs2).outcome =
      (400, RespBody.jsonMsg (corruptionMessage (resolveExtras fs0 fs2 extras d
        (resolveExtras fs0 fs1 extras d primary)))) ∧
    ∃ t, corruptionMessage (resolveExtras fs0 fs2 extras d
        (resolveExtras fs0 fs1 extras d primary)) = "File corruption" ++ t := by
  have hcall : hashFileCall hash fs0 extras d primary fs1 fs2 =
      ⟨GetOutcome.corruption (resolveExtras fs0 fs2 extras d
        (resolveExtras fs0 fs1 extras d primary)), 2, 1⟩ := by
    simp [hashFileCall, h1, verifyPhase, h2, h3, h4]
  refine ⟨hcall, ?_, ?_⟩
  · rw [hcall]
    rfl
  · refine ⟨": file at path " ++ (resolveExtras fs0 fs2 extras d
      (resolveExtras fs0 fs1 extras d primary)) ++
      " does not have the correct SHA3-256 checksum.", ?_⟩
    simp [corruptionMessage, ← String.append_assoc]

/-- C2 witness: the corruption response at a concrete corrupted file. -/
theorem get_corruption_retry_witness :
    hashFileCall (fun _ => "zz") [] [] "aa" "P" [("P", [1])] [("P", [1])] =
      ⟨GetOutcome.corruption (resolveExtras [] [("P", [1])] [] "aa"
        (resolveExtras [] [("P", [1])] [] "aa" "P")), 2, 1⟩ :=
  (get_corruption_retry (fun _ => "zz") [] [("P", [1])] [("P", [1])] [] "aa" "P"
    [1] [1] (by decide) (by decide) (by decide) (by decide)).1

/-! ## The prefix-layout marker write of the GET endpoint (C10) -/

/-- The two bytes b"1\n" that `PrefixHashFileResponse.__init__` writes
(hash_file_response.py, lines 209-211). -/
def prefixMarkerBytes : Bytes := [49, 10]

/-- Filesystem effect of constructing the response object inside `get_file`
(hashserver.py, lines 500-509): under prefix layout the constructor of
`PrefixHashFileResponse` opens `$DIR/.HASHSERVER_PREFIX` for writing and
writes b"1\n"; under flat layout nothing is written. -/
def get_file_construct (layout : Layout) (dir : String) (fs : FS) : FS :=
  match layout with
  | Layout.flat => fs
  | Layout.pfx => fsInsert fs (markerPath dir) prefixMarkerBytes

/-- C10: under prefix layout, every GET mutates the primary directory:
constructing the response creates or overwrites `$DIR/.HASHSERVER_PREFIX`
with the two bytes "1\n", so after any GET the marker file exists, holds
exactly those two bytes, and is not zero-byte — whatever it contained
before. -/
theorem get_file_marker_write (dir : String) (fs : FS) :
    fsFind (get_file_construct Layout.pfx dir fs) (markerPath dir) =
      some prefixMarkerBytes ∧
    prefixMarkerBytes.length = 2 ∧
    prefixMarkerBytes ≠ [] ∧
    get_file_construct Layout.flat dir fs = fs := by
  refine ⟨?_, rfl, by decide, rfl⟩
  simp [get_file_construct, fsFind_fsInsert]

/-! ## The batched existence query `GET /has`

Shallow embedding of `has_buffers` (hashserver.py, lines 417-460).  The
handler keeps one mutable result row per digest (initially all `0`), stats
the primary-layout path of every digest, then for each extra directory
appends the FLAT candidate `$EXTRA/$DIGEST` of every digest whose result is
still falsy to the (accumulating) path list and re-stats the whole list;
stat errors leave the row untouched.  Finally every promised digest's row
is overwritten with the Python boolean `True`.  A row is therefore either a
non-negative integer (a size or `0`) or the JSON boolean `true`. -/

/-- One element of the `/has` response array: a JSON integer or a JSON
boolean (`curr_results[idx] = True` stores a Python bool). -/
inductive HasVal where
  | int (n : Nat)
  | bool (b : Bool)
  deriving DecidableEq, Repr

/-- The `stat_all` helper of `has_buffers` (hashserver.py, lines 423-432):
stat every path and write the size into the row of its digest index;
failed stats are skipped. -/
def stat_all (fs : FS) : List (Nat × String) → List Nat → List Nat
  | [], curr => curr
  | q :: rest, curr =>
    stat_all fs rest
      (match statSize fs q.2 with
       | some sz => curr.set q.1 sz
       | none => curr)

/-- One iteration of the extra-directory loop of `has_buffers`
(hashserver.py, lines 446-454): append the flat candidate of every
still-falsy digest to the accumulated path list, then re-stat the whole
list.  (The `if not len(paths): break` line only fires for an empty digest
list, where the fold is a no-op anyway.) -/
def hasStep (fs : FS) (checksums : List String) :
    List Nat × List (Nat × String) → String → List Nat × List (Nat × String) :=
  fun st extra =>
    let adds := (checksums.enum.filter (fun q => st.1.getD q.1 0 = 0)).map
      (fun q => (q.1, joinPath extra q.2))
    let paths2 := st.2 ++ adds
    (stat_all fs paths2 st.1, paths2)

/-- Shallow embedding of `has_buffers` (hashserver.py, lines 417-460). -/
def has_buffers (layout : Layout) (dir : String) (extras : List String)
    (fs : FS) (promised : List String) (checksums : List String) : List HasVal :=
  let paths0 := checksums.enum.map (fun q => (q.1, canonicalPath layout dir q.2))
  let curr1 := stat_all fs paths0 (List.replicate checksums.length 0)
  let currF := (extras.foldl (hasStep fs checksums) (curr1, paths0)).1
  currF.enum.map (fun q =>
    if promised.contains (checksums.getD q.1 "") then HasVal.bool true
    else HasVal.int q.2)

/-- Specification-side scan: the first nonzero file size among a list of
candidate paths, `0` if none. -/
def flatScanSize (fs : FS) : List String → Nat
  | [] => 0
  | p :: rest =>
    match statSize fs p with
    | some sz => if sz = 0 then flatScanSize fs rest else sz
    | none => flatScanSize fs rest

/-! ### Pointwise analysis of the `/has` scan

`hitFold` replays, for one fixed digest index, the effect on that row of a
sequence of stats; `lastHitFrom` is the last successful stat among them. -/

/-- Effect on row `idx` of statting `paths` in order starting from row
value `v`. -/
def hitFold (fs : FS) (idx : Nat) (v : Nat) : List (Nat × String) → Nat
  | [] => v
  | q :: rest =>
    if q.1 = idx then
      match statSize fs q.2 with
      | some sz => hitFold fs idx sz rest
      | none => hitFold fs idx v rest
    else hitFold fs idx v rest

/-- The last successful stat for row `idx` among `paths`, starting from
`o`. -/
def lastHitFrom (fs : FS) (idx : Nat) (o : Option Nat) :
    List (Nat × String) → Option Nat
  | [] => o
  | q :: rest =>
    if q.1 = idx then
      match statSize fs q.2 with
      | some sz => lastHitFrom fs idx (some sz) rest
      | none => lastHitFrom fs idx o rest
    else lastHitFrom fs idx o rest

theorem getD_set_self : ∀ (l : List Nat) (i v : Nat), i < l.length →
    (l.set i v).getD i 0 = v
  | [], _, _, h => absurd h (by simp)
  | _ :: _, 0, _, _ => rfl
  | x :: rest, i + 1, v, h => by
    show (x :: rest.set i v).getD (i + 1) 0 = v
    rw [List.getD_cons_succ]
    exact getD_set_self rest i v (by simpa using h)

theorem getD_set_ne : ∀ (l : List Nat) (i j v : Nat), i ≠ j →
    (l.set i v).getD j 0 = l.getD j 0
  | [], _, _, _, _ => by simp
  | _ :: _, 0, 0, _, h => absurd rfl h
  | x :: rest, 0, j + 1, v, _ => by
    show (v :: rest).getD (j + 1) 0 = _
    rw [List.getD_cons_succ, List.getD_cons_succ]
  | x :: rest, i + 1, 0, v, _ => by
    show (x :: rest.set i v).getD 0 0 = _
    rfl
  | x :: rest, i + 1, j + 1, v, h => by
    show (x :: rest.set i v).getD (j + 1) 0 = _
    rw [List.getD_cons_succ, List.getD_cons_succ]
    exact getD_set_ne rest i j v (fun hh => h (by omega))

theorem stat_all_length (fs : FS) : ∀ (paths : List (Nat × String)) (curr : List Nat),
    (stat_all fs paths curr).length = curr.length
  | [], _ => rfl
  | q :: rest, curr => by
    cases h : statSize fs q.2 <;>
      simp [stat_all, h, stat_all_length fs rest]

theorem stat_all_getD (fs : FS) (idx : Nat) :
    ∀ (paths : List (Nat × String)) (curr : List Nat), idx < curr.length →
      (stat_all fs paths curr).getD idx 0 = hitFold fs idx (curr.getD idx 0) paths
  | [], _, _ => rfl
  | q :: rest, curr, h => by
    cases hst : statSize fs q.2 with
    | none =>
      have ih := stat_all_getD fs idx rest curr h
      have hstep : stat_all fs (q :: rest) curr = stat_all fs rest curr := by
        simp [stat_all, hst]
      rw [hstep, ih]
      by_cases hq : q.1 = idx <;> simp [hitFold, hq, hst]
    | some sz =>
      have hlen : idx < (curr.set q.1 sz).length := by simpa using h
      have ih := stat_all_getD fs idx rest (curr.set q.1 sz) hlen
      have hstep : stat_all fs (q :: rest) curr = stat_all fs rest (curr.set q.1 sz) := by
        simp [stat_all, hst]
      rw [hstep, ih]
      by_cases hq : q.1 = idx
      · have hset : (curr.set q.1 sz).getD idx 0 = sz := by
          rw [hq]
          exact getD_set_self curr idx sz h
        rw [hset]
        simp [hitFold, hq, hst]
      · have hset : (curr.set q.1 sz).getD idx 0 = curr.getD idx 0 :=
          getD_set_ne curr q.1 idx sz hq
        rw [hset]
        simp [hitFold, hq, hst]

theorem lastHitFrom_some (fs : FS) (idx : Nat) :
    ∀ (paths : List (Nat × String)) (a : Nat),
      lastHitFrom fs idx (some a) paths =
        some ((lastHitFrom fs idx none paths).getD a)
  | [], _ => rfl
  | q :: rest, a => by
    by_cases hq : q.1 = idx
    · cases hst : statSize fs q.2 <;>
        simp [lastHitFrom, hq, hst, lastHitFrom_some fs idx rest]
    · simp [lastHitFrom, hq, lastHitFrom_some fs idx rest]

theorem hitFold_eq_lastHit (fs : FS) (idx : Nat) :
    ∀ (paths : List (Nat × String)) (v : Nat),
      hitFold fs idx v paths = (lastHitFrom fs idx none paths).getD v
  | [], _ => rfl
  | q :: rest, v => by
    by_cases hq : q.1 = idx
    · cases hst : statSize fs q.2 <;>
        simp [hitFold, lastHitFrom, hq, hst, hitFold_eq_lastHit fs idx rest,
          lastHitFrom_some fs idx rest]
    · simp [hitFold, lastHitFrom, hq, hitFold_eq_lastHit fs idx rest]

theorem hitFold_append (fs : FS) (idx : Nat) :
    ∀ (a b : List (Nat × String)) (v : Nat),
      hitFold fs idx v (a ++ b) = hitFold fs idx (hitFold fs idx v a) b
  | [], _, _ => rfl
  | q :: rest, b, v => by
    by_cases hq : q.1 = idx
    · cases hst : statSize fs q.2 <;>
        simp [hitFold, hq, hst, hitFold_append fs idx rest]
    · simp [hitFold, hq, hitFold_append fs idx rest]

theorem lastHitFrom_append (fs : FS) (idx : Nat) :
    ∀ (a b : List (Nat × String)) (o : Option Nat),
      lastHitFrom fs idx o (a ++ b) = lastHitFrom fs idx (lastHitFrom fs idx o a) b
  | [], _, _ => rfl
  | q :: rest, b, o => by
    by_cases hq : q.1 = idx
    · cases hst : statSize fs q.2 <;>
        simp [lastHitFrom, hq, hst, lastHitFrom_append fs idx rest]
    · simp [lastHitFrom, hq, lastHitFrom_append fs idx rest]

theorem hitFold_filter (fs : FS) (idx : Nat) :
    ∀ (paths : List (Nat × String)) (v : Nat),
      hitFold fs idx v paths =
        hitFold fs idx v (paths.filter (fun q => q.1 = idx))
  | [], _ => rfl
  | q :: rest, v => by
    by_cases hq : q.1 = idx
    · cases hst : statSize fs q.2 <;>
        simp [hitFold, List.filter_cons, hq, hst, hitFold_filter fs idx rest]
    · simp [hitFold, List.filter_cons, hq, hitFold_filter fs idx rest]

theorem lastHitFrom_filter (fs : FS) (idx : Nat) :
    ∀ (paths : List (Nat × String)) (o : Option Nat),
      lastHitFrom fs idx o paths =
        lastHitFrom fs idx o (paths.filter (fun q => q.1 = idx))
  | [], _ => rfl
  | q :: rest, o => by
    by_cases hq : q.1 = idx
    · cases hst : statSize fs q.2 <;>
        simp [lastHitFrom, List.filter_cons, hq, hst, lastHitFrom_filter fs idx rest]
    · simp [lastHitFrom, List.filter_cons, hq, lastHitFrom_filter fs idx rest]

theorem primary_entries (g : String → String) (idx : Nat) :
    ∀ (l : List String) (k : Nat),
      ((List.enumFrom k l).map (fun q => (q.1, g q.2))).filter (fun q => q.1 = idx)
        = if k ≤ idx ∧ idx < k + l.length
          then [(idx, g (l.getD (idx - k) ""))] else []
  | [], k => by simp
  | c :: rest, k => by
    rw [List.enumFrom, List.map_cons]
    by_cases hk : k = idx
    · subst hk
      rw [List.filter_cons_of_pos (by simp)]
      have hrest := primary_entries g k rest (k + 1)
      rw [if_neg (by omega)] at hrest
      rw [hrest, if_pos ⟨Nat.le_refl _, by simp only [List.length_cons]; omega⟩]
      simp
    · rw [List.filter_cons_of_neg (by simp [hk])]
      have hrest := primary_entries g idx rest (k + 1)
      rw [hrest]
      by_cases hcond : k + 1 ≤ idx ∧ idx < k + 1 + rest.length
      · rw [if_pos hcond, if_pos (by simp only [List.length_cons]; omega)]
        have hshift : idx - k = (idx - (k + 1)) + 1 := by omega
        rw [hshift, List.getD_cons_succ]
      · rw [if_neg hcond, if_neg (by simp only [List.length_cons]; omega)]

theorem adds_entries (g : String → String) (curr : List Nat) (idx : Nat) :
    ∀ (l : List String) (k : Nat),
      (((List.enumFrom k l).filter (fun q => curr.getD q.1 0 = 0)).map
          (fun q => (q.1, g q.2))).filter (fun q => q.1 = idx)
        = if k ≤ idx ∧ idx < k + l.length ∧ curr.getD idx 0 = 0
          then [(idx, g (l.getD (idx - k) ""))] else []
  | [], k => by
    rw [if_neg (fun hc => by
      obtain ⟨h1, h2, _⟩ := hc
      simp only [List.length_nil] at h2
      omega)]
    simp
  | c :: rest, k => by
    rw [List.enumFrom]
    have hrest := adds_entries g curr idx rest (k + 1)
    by_cases hk : k = idx
    · subst hk
      rw [if_neg (fun hc => absurd hc.1 (by omega))] at hrest
      by_cases hz : curr.getD k 0 = 0
      · rw [List.filter_cons_of_pos (by simpa using hz), List.map_cons,
          List.filter_cons_of_pos (by simp), hrest,
          if_pos ⟨Nat.le_refl _, by simp only [List.length_cons]; omega, hz⟩]
        simp
      · rw [List.filter_cons_of_neg (by simpa using hz), hrest,
          if_neg (fun hc => hz hc.2.2)]
    · have hfinal :
          (if k + 1 ≤ idx ∧ idx < k + 1 + rest.length ∧ curr.getD idx 0 = 0
            then [(idx, g (rest.getD (idx - (k + 1)) ""))] else [])
          = if k ≤ idx ∧ idx < k + (c :: rest).length ∧ curr.getD idx 0 = 0
            then [(idx, g ((c :: rest).getD (idx - k) ""))] else [] := by
        by_cases hcond : k + 1 ≤ idx ∧ idx < k + 1 + rest.length ∧
            curr.getD idx 0 = 0
        · have hpg : k ≤ idx ∧ idx < k + (c :: rest).length ∧
              curr.getD idx 0 = 0 := by
            obtain ⟨ha, hb, hc⟩ := hcond
            exact ⟨by omega, by simp only [List.length_cons]; omega, hc⟩
          rw [if_pos hcond, if_pos hpg]
          have hshift : idx - k = (idx - (k + 1)) + 1 := by omega
          rw [hshift, List.getD_cons_succ]
        · have hng : ¬(k ≤ idx ∧ idx < k + (c :: rest).length ∧
              curr.getD idx 0 = 0) := by
            intro hcc
            obtain ⟨ha, hb, hc⟩ := hcc
            simp only [List.length_cons] at hb
            exact hcond ⟨by omega, by omega, hc⟩
          rw [if_neg hcond, if_neg hng]
      by_cases hz : curr.getD k 0 = 0
      · rw [List.filter_cons_of_pos (by simpa using hz), List.map_cons,
          List.filter_cons_of_neg (by simp [hk]), hrest, hfinal]
      · rw [List.filter_cons_of_neg (by simpa using hz), hrest, hfinal]

/-- Continuation of the `/has` scan from a current row value `v` over the
remaining flat candidates. -/
def scanCont (fs : FS) (v : Nat) : List String → Nat
  | [] => v
  | p :: rest =>
    if v = 0 then
      scanCont fs (match statSize fs p with | some sz => sz | none => 0) rest
    else v

theorem scanCont_pos (fs : FS) : ∀ (l : List String) (v : Nat), v ≠ 0 →
    scanCont fs v l = v
  | [], _, _ => rfl
  | _ :: _, v, h => by simp [scanCont, h]

theorem scanCont_zero (fs : FS) : ∀ (l : List String),
    scanCont fs 0 l = flatScanSize fs l
  | [] => rfl
  | p :: rest => by
    rw [scanCont, if_pos rfl, flatScanSize]
    cases hst : statSize fs p with
    | none => simp [hst, scanCont_zero fs rest]
    | some sz =>
      by_cases hz : sz = 0
      · subst hz
        simp [hst, scanCont_zero fs rest]
      · simp [hst, hz, scanCont_pos fs rest sz hz]

theorem hitFold_singleton (fs : FS) (idx : Nat) (p : String) (v : Nat) :
    hitFold fs idx v [(idx, p)] =
      (match statSize fs p with | some sz => sz | none => v) := by
  cases hst : statSize fs p <;> simp [hitFold, hst]

theorem lastHitFrom_singleton (fs : FS) (idx : Nat) (p : String) (o : Option Nat) :
    lastHitFrom fs idx o [(idx, p)] =
      (match statSize fs p with | some sz => some sz | none => o) := by
  cases hst : statSize fs p <;> simp [lastHitFrom, hst]

theorem hasFold_getD (fs : FS) (checksums : List String) (idx : Nat)
    (hidx : idx < checksums.length) :
    ∀ (extras : List String) (curr : List Nat) (paths : List (Nat × String)),
      curr.length = checksums.length →
      (lastHitFrom fs idx none paths).getD 0 = curr.getD idx 0 →
      ((extras.foldl (hasStep fs checksums) (curr, paths)).1.getD idx 0 =
          scanCont fs (curr.getD idx 0)
            (extras.map (fun e => joinPath e (checksums.getD idx ""))) ∧
        (extras.foldl (hasStep fs checksums) (curr, paths)).1.length =
          checksums.length)
  | [], curr, paths, hlen, _ => ⟨rfl, hlen⟩
  | extra :: rest, curr, paths, hlen, hJ => by
    have hidxc : idx < curr.length := by omega
    have henum : checksums.enum = List.enumFrom 0 checksums := rfl
    have haf : ((checksums.enum.filter (fun q => curr.getD q.1 0 = 0)).map
          (fun q => (q.1, joinPath extra q.2))).filter (fun q => q.1 = idx)
        = if curr.getD idx 0 = 0
          then [(idx, joinPath extra (checksums.getD idx ""))] else [] := by
      rw [henum, adds_entries (joinPath extra) curr idx checksums 0]
      by_cases hz : curr.getD idx 0 = 0
      · rw [if_pos ⟨Nat.zero_le _, by omega, hz⟩, if_pos hz]
        simp
      · rw [if_neg (fun hc => hz hc.2.2), if_neg hz]
    have hfp : hitFold fs idx (curr.getD idx 0) paths = curr.getD idx 0 := by
      rw [hitFold_eq_lastHit]
      cases ho : lastHitFrom fs idx none paths with
      | none => rfl
      | some x =>
        rw [ho] at hJ
        simpa using hJ
    have hv2 : (stat_all fs (paths ++ ((checksums.enum.filter
          (fun q => curr.getD q.1 0 = 0)).map
            (fun q => (q.1, joinPath extra q.2)))) curr).getD idx 0 =
        hitFold fs idx (curr.getD idx 0)
          ((checksums.enum.filter (fun q => curr.getD q.1 0 = 0)).map
            (fun q => (q.1, joinPath extra q.2))) := by
      rw [stat_all_getD fs idx _ curr hidxc, hitFold_append, hfp]
    have hadds : hitFold fs idx (curr.getD idx 0)
          ((checksums.enum.filter (fun q => curr.getD q.1 0 = 0)).map
            (fun q => (q.1, joinPath extra q.2))) =
        (if curr.getD idx 0 = 0 then
          (match statSize fs (joinPath extra (checksums.getD idx "")) with
           | some sz => sz
           | none => 0)
         else curr.getD idx 0) := by
      rw [hitFold_filter, haf]
      by_cases hz : curr.getD idx 0 = 0
      · rw [if_pos hz, if_pos hz, hz, hitFold_singleton]
      · rw [if_neg hz, if_neg hz]
        rfl
    have hJ2 : (lastHitFrom fs idx none (paths ++ ((checksums.enum.filter
          (fun q => curr.getD q.1 0 = 0)).map
            (fun q => (q.1, joinPath extra q.2))))).getD 0 =
        (stat_all fs (paths ++ ((checksums.enum.filter
          (fun q => curr.getD q.1 0 = 0)).map
            (fun q => (q.1, joinPath extra q.2)))) curr).getD idx 0 := by
      rw [hv2, hadds, lastHitFrom_append, lastHitFrom_filter, haf]
      by_cases hz : curr.getD idx 0 = 0
      · rw [if_pos hz, if_pos hz, lastHitFrom_singleton]
        cases hst : statSize fs (joinPath extra (checksums.getD idx "")) with
        | some sz => rfl
        | none => exact hJ.trans hz
      · rw [if_neg hz, if_neg hz]
        exact hJ
    have hlen2 : (stat_all fs (paths ++ ((checksums.enum.filter
          (fun q => curr.getD q.1 0 = 0)).map
            (fun q => (q.1, joinPath extra q.2)))) curr).length =
        checksums.length := by
      rw [stat_all_length]
      exact hlen
    obtain ⟨ih1, ih2⟩ := hasFold_getD fs checksums idx hidx rest
      (stat_all fs (paths ++ ((checksums.enum.filter
        (fun q => curr.getD q.1 0 = 0)).map
          (fun q => (q.1, joinPath extra q.2)))) curr)
      (paths ++ ((checksums.enum.filter (fun q => curr.getD q.1 0 = 0)).map
        (fun q => (q.1, joinPath extra q.2))))
      hlen2 hJ2
    rw [List.foldl_cons]
    have hstep : hasStep fs checksums (curr, paths) extra =
        (stat_all fs (paths ++ ((checksums.enum.filter
          (fun q => curr.getD q.1 0 = 0)).map
            (fun q => (q.1, joinPath extra q.2)))) curr,
         paths ++ ((checksums.enum.filter (fun q => curr.getD q.1 0 = 0)).map
            (fun q => (q.1, joinPath extra q.2)))) := rfl
    rw [hstep]
    refine ⟨?_, ih2⟩
    rw [ih1, hv2, hadds, List.map_cons, scanCont]
    by_cases hz : curr.getD idx 0 = 0
    · rw [if_pos hz, if_pos hz]
    · rw [if_neg hz, if_neg hz]
      exact scanCont_pos fs _ _ hz

theorem getD_replicate_zero : ∀ (n idx : Nat), (List.replicate n 0).getD idx 0 = 0
  | 0, _ => by simp
  | n + 1, 0 => rfl
  | n + 1, idx + 1 => by
    show ((0 : Nat) :: List.replicate n 0).getD (idx + 1) 0 = 0
    rw [List.getD_cons_succ]
    exact getD_replicate_zero n idx

theorem enumFrom_map_getD {β : Type} (f : Nat × Nat → β) (dflt : β) :
    ∀ (l : List Nat) (k idx : Nat), idx < l.length →
      ((List.enumFrom k l).map f).getD idx dflt = f (k + idx, l.getD idx 0)
  | [], _, _, h => absurd h (by simp)
  | x :: rest, k, 0, _ => by
    rw [List.enumFrom, List.map_cons]
    show f (k, x) = f (k + 0, (x :: rest).getD 0 0)
    rw [Nat.add_zero, List.getD_cons_zero]
  | x :: rest, k, idx + 1, h => by
    rw [List.enumFrom, List.map_cons, List.getD_cons_succ,
      enumFrom_map_getD f dflt rest (k + 1) idx (by simpa using h),
      List.getD_cons_succ]
    have hkk : k + 1 + idx = k + (idx + 1) := by omega
    rw [hkk]

/-- The row value a stat of path `p` produces: the file size, or `0` on a
stat error. -/
def statValD (fs : FS) (p : String) : Nat :=
  match statSize fs p with
  | some sz => sz
  | none => 0

theorem hitFold_singleton_zero (fs : FS) (idx : Nat) (p : String) :
    hitFold fs idx 0 [(idx, p)] = statValD fs p := by
  rw [hitFold_singleton]
  rfl

theorem scan_primary (fs : FS) (p0 : String) (cands : List String) :
    scanCont fs (statValD fs p0) cands = flatScanSize fs (p0 :: cands) := by
  cases hst : statSize fs p0 with
  | none =>
    show scanCont fs (statValD fs p0) cands = flatScanSize fs (p0 :: cands)
    rw [flatScanSize, hst]
    rw [show statValD fs p0 = 0 by rw [statValD, hst]]
    exact scanCont_zero fs cands
  | some sz =>
    rw [flatScanSize, hst]
    rw [show statValD fs p0 = sz by rw [statValD, hst]]
    show scanCont fs sz cands = if sz = 0 then flatScanSize fs cands else sz
    by_cases hz : sz = 0
    · subst hz
      rw [if_pos rfl]
      exact scanCont_zero fs cands
    · rw [if_neg hz]
      exact scanCont_pos fs cands sz hz

theorem map_promised_getD (promised checksums : List String) (currF : List Nat)
    (idx : Nat) (h : idx < currF.length) :
    (currF.enum.map (fun q =>
        if promised.contains (checksums.getD q.1 "") then HasVal.bool true
        else HasVal.int q.2)).getD idx (HasVal.int 0)
      = if promised.contains (checksums.getD idx "") then HasVal.bool true
        else HasVal.int (currF.getD idx 0) := by
  rw [show currF.enum = List.enumFrom 0 currF from rfl]
  rw [enumFrom_map_getD (fun q =>
        if promised.contains (checksums.getD q.1 "") then HasVal.bool true
        else HasVal.int q.2) (HasVal.int 0) currF 0 idx h,
    Nat.zero_add]

theorem hasFold_length (fs : FS) (checksums : List String) :
    ∀ (extras : List String) (curr : List Nat) (paths : List (Nat × String)),
      ((extras.foldl (hasStep fs checksums) (curr, paths)).1).length = curr.length
  | [], _, _ => rfl
  | extra :: rest, curr, paths => by
    rw [List.foldl_cons]
    have hstep : hasStep fs checksums (curr, paths) extra =
        (stat_all fs (paths ++ ((checksums.enum.filter
          (fun q => curr.getD q.1 0 = 0)).map
            (fun q => (q.1, joinPath extra q.2)))) curr,
         paths ++ ((checksums.enum.filter (fun q => curr.getD q.1 0 = 0)).map
            (fun q => (q.1, joinPath extra q.2)))) := rfl
    rw [hstep, hasFold_length fs checksums rest _ _, stat_all_length]

theorem has_buffers_length (layout : Layout) (dir : String)
    (extras : List String) (fs : FS) (promised : List String)
    (checksums : List String) :
    (has_buffers layout dir extras fs promised checksums).length =
      checksums.length := by
  show ((extras.foldl (hasStep fs checksums)
      (stat_all fs (checksums.enum.map
        (fun q => (q.1, canonicalPath layout dir q.2)))
        (List.replicate checksums.length 0),
       checksums.enum.map
         (fun q => (q.1, canonicalPath layout dir q.2)))).1.enum.map
      (fun q => if promised.contains (checksums.getD q.1 "") then HasVal.bool true
                else HasVal.int q.2)).length = checksums.length
  rw [List.length_map, List.enum_length, hasFold_length, stat_all_length,
    List.length_replicate]

theorem has_buffers_core (layout : Layout) (dir : String) (extras : List String)
    (fs : FS) (promised : List String) (checksums : List String) (idx : Nat)
    (hidx : idx < checksums.length) :
    (has_buffers layout dir extras fs promised checksums).getD idx (HasVal.int 0) =
      (if promised.contains (checksums.getD idx "") then HasVal.bool true
       else HasVal.int (flatScanSize fs
         (canonicalPath layout dir (checksums.getD idx "") ::
           extras.map (fun e => joinPath e (checksums.getD idx ""))))) := by
  have henum : checksums.enum = List.enumFrom 0 checksums := rfl
  have hidx0 : idx < (List.replicate checksums.length 0).length := by
    simpa using hidx
  have hp0 : (checksums.enum.map
        (fun q => (q.1, canonicalPath layout dir q.2))).filter
        (fun q => q.1 = idx)
      = [(idx, canonicalPath layout dir (checksums.getD idx ""))] := by
    rw [henum, primary_entries (canonicalPath layout dir) idx checksums 0,
      if_pos ⟨Nat.zero_le _, by omega⟩]
    simp
  have hv1 : (stat_all fs (checksums.enum.map
        (fun q => (q.1, canonicalPath layout dir q.2)))
        (List.replicate checksums.length 0)).getD idx 0 =
      statValD fs (canonicalPath layout dir (checksums.getD idx "")) := by
    rw [stat_all_getD fs idx _ _ hidx0, getD_replicate_zero, hitFold_filter, hp0,
      hitFold_singleton_zero]
  have hJ1 : (lastHitFrom fs idx none (checksums.enum.map
        (fun q => (q.1, canonicalPath layout dir q.2)))).getD 0 =
      (stat_all fs (checksums.enum.map
        (fun q => (q.1, canonicalPath layout dir q.2)))
        (List.replicate checksums.length 0)).getD idx 0 := by
    rw [hv1, lastHitFrom_filter, hp0, lastHitFrom_singleton]
    cases hst : statSize fs (canonicalPath layout dir (checksums.getD idx "")) with
    | some sz =>
      show (some sz).getD 0 = statValD fs _
      rw [statValD, hst]
      rfl
    | none =>
      show (none : Option Nat).getD 0 = statValD fs _
      rw [statValD, hst]
      rfl
  have hlen1 : (stat_all fs (checksums.enum.map
        (fun q => (q.1, canonicalPath layout dir q.2)))
        (List.replicate checksums.length 0)).length = checksums.length := by
    rw [stat_all_length, List.length_replicate]
  obtain ⟨hfold, hflen⟩ := hasFold_getD fs checksums idx hidx extras
    (stat_all fs (checksums.enum.map
      (fun q => (q.1, canonicalPath layout dir q.2)))
      (List.replicate checksums.length 0))
    (checksums.enum.map (fun q => (q.1, canonicalPath layout dir q.2)))
    hlen1 hJ1
  have hcf : idx < ((extras.foldl (hasStep fs checksums)
      (stat_all fs (checksums.enum.map
        (fun q => (q.1, canonicalPath layout dir q.2)))
        (List.replicate checksums.length 0),
       checksums.enum.map
         (fun q => (q.1, canonicalPath layout dir q.2)))).1).length := by
    rw [hflen]
    exact hidx
  show ((extras.foldl (hasStep fs checksums)
      (stat_all fs (checksums.enum.map
        (fun q => (q.1, canonicalPath layout dir q.2)))
        (List.replicate checksums.length 0),
       checksums.enum.map
         (fun q => (q.1, canonicalPath layout dir q.2)))).1.enum.map
      (fun q => if promised.contains (checksums.getD q.1 "") then HasVal.bool true
                else HasVal.int q.2)).getD idx (HasVal.int 0) = _
  rw [map_promised_getD promised checksums _ idx hcf, hfold, hv1, scan_primary]

/-- C6 counterexample: digest "aa" has a 5-byte file at its primary path
AND a pending promise: `/has` reports the JSON boolean `true` (the Python
`True` written by the promise overwrite), not the file size 5 and not an
integer, contradicting the claim that a present file reports its size in
bytes. -/
theorem has_buffers_promised_cex :
    has_buffers Layout.flat "D" [] [("D/aa", [9, 9, 9, 9, 9])] ["aa"] ["aa"]
      = [HasVal.bool true] ∧
    statSize [("D/aa", [9, 9, 9, 9, 9])] "D/aa" = some 5 ∧
    HasVal.bool true ≠ HasVal.int 5 := by
  decide

/-- C6 (amended): for every valid JSON array of digests, `/has` returns a
200 JSON array of the same length; the element of an UNPROMISED digest is a
non-negative integer — 0 when the file is absent from the primary path and
from every extra directory's flat candidate (stat errors counting as
absent), otherwise the first nonzero file size among those candidates; the
element of a PROMISED digest is the JSON boolean `true` (a nonzero-truthy
non-integer), regardless of whether its file exists and whatever its
size. -/
theorem has_buffers_amended (layout : Layout) (dir : String)
    (extras : List String) (fs : FS) (promised : List String)
    (checksums : List String) :
    (has_buffers layout dir extras fs promised checksums).length =
      checksums.length ∧
    ∀ idx, idx < checksums.length →
      (has_buffers layout dir extras fs promised checksums).getD idx
          (HasVal.int 0)
        = (if promised.contains (checksums.getD idx "") then HasVal.bool true
           else HasVal.int (flatScanSize fs
             (canonicalPath layout dir (checksums.getD idx "") ::
               extras.map (fun e => joinPath e (checksums.getD idx "")))))  :=
  ⟨has_buffers_length layout dir extras fs promised checksums,
   fun idx hidx => has_buffers_core layout dir extras fs promised checksums idx hidx⟩

/-- C6 witness: the amended characterization at a concrete two-digest
query where the first digest is promised. -/
theorem has_buffers_amended_witness :
    (has_buffers Layout.flat "D" [] [("D/aa", [1, 2, 3])] ["aa"]
        ["aa", "bb"]).getD 0 (HasVal.int 0)
      = (if (["aa"] : List String).contains
            ((["aa", "bb"] : List String).getD 0 "")
         then HasVal.bool true
         else HasVal.int (flatScanSize [("D/aa", [1, 2, 3])]
           (canonicalPath Layout.flat "D" ((["aa", "bb"] : List String).getD 0 "")
             :: List.map
               (fun e => joinPath e ((["aa", "bb"] : List String).getD 0 ""))
               []))) :=
  (has_buffers_amended Layout.flat "D" [] [("D/aa", [1, 2, 3])] ["aa"]
    ["aa", "bb"]).2 0 (by decide)

theorem find?_map_cand (fs0 fs : FS) (d : String) :
    ∀ (l : List String),
      (l.map (extraCandPath fs0 d)).find? (fun p => (fsFind fs p).isSome)
        = (l.find? (fun e => (fsFind fs (extraCandPath fs0 d e)).isSome)).map
            (extraCandPath fs0 d)
  | [] => rfl
  | e :: rest => by
    by_cases h : (fsFind fs (extraCandPath fs0 d e)).isSome <;>
      simp [List.find?, h, find?_map_cand fs0 fs d rest]

/-- C7 counterexample: the extra directory "E" carries the
`.HASHSERVER_PREFIX` marker and stores digest "abcd" at its prefix-layout
candidate "E/ab/abcd".  A GET resolves and serves that file through the
layout-appropriate candidate, but `GET /has` reports 0 for the same digest:
`has_buffers` consults only the flat candidate "E/abcd" and ignores the
marker, contradicting the claim for the `/has` read path. -/
theorem has_buffers_flat_extra_cex :
    fsFind [("E/ab/abcd", [1, 2, 3]), ("E/.HASHSERVER_PREFIX", [49, 10])]
      (markerPath "E") = some [49, 10] ∧
    fsFind [("E/ab/abcd", [1, 2, 3]), ("E/.HASHSERVER_PREFIX", [49, 10])]
      (extraCandPath
        [("E/ab/abcd", [1, 2, 3]), ("E/.HASHSERVER_PREFIX", [49, 10])]
        "abcd" "E") = some [1, 2, 3] ∧
    has_buffers Layout.flat "D" ["E"]
      [("E/ab/abcd", [1, 2, 3]), ("E/.HASHSERVER_PREFIX", [49, 10])] [] ["abcd"]
      = [HasVal.int 0] ∧
    (hashFileCall (fun b => if b = [1, 2, 3] then "abcd" else "")
      [("E/ab/abcd", [1, 2, 3]), ("E/.HASHSERVER_PREFIX", [49, 10])] ["E"] "abcd"
      (canonicalPath Layout.flat "D" "abcd")
      [("E/ab/abcd", [1, 2, 3]), ("E/.HASHSERVER_PREFIX", [49, 10])]
      [("E/ab/abcd", [1, 2, 3]), ("E/.HASHSERVER_PREFIX", [49, 10])]).outcome
      = GetOutcome.served [1, 2, 3] := by
  decide

/-- C7 (amended): on GET /{digest} each extra directory is consulted at its
layout-appropriate candidate path — `$EXTRA/$P2/$DIGEST` when the extra's
root holds the `.HASHSERVER_PREFIX` marker, else `$EXTRA/$DIGEST` — with
extras tried in configured order and the first existing candidate winning;
but on GET /has every extra directory is consulted at its FLAT candidate
`$EXTRA/$DIGEST` only, regardless of the marker. -/
theorem read_extras_layout_amended :
    (∀ (fs0 : FS) (d e : String),
      extraCandPath fs0 d e =
        if (fsFind fs0 (markerPath e)).isSome
        then joinPath (joinPath e (pfx2 d)) d
        else joinPath e d) ∧
    (∀ (fs0 fs : FS) (extras : List String) (d cur : String),
      ((fsFind fs cur).isSome → resolveExtras fs0 fs extras d cur = cur) ∧
      (fsFind fs cur = none →
        resolveExtras fs0 fs extras d cur =
          (((extras.map (extraCandPath fs0 d)).find?
            (fun p => (fsFind fs p).isSome)).getD cur))) ∧
    (∀ (layout : Layout) (dir : String) (extras : List String) (fs : FS)
        (promised : List String) (checksums : List String) (idx : Nat),
      idx < checksums.length →
      promised.contains (checksums.getD idx "") = false →
      (has_buffers layout dir extras fs promised checksums).getD idx
          (HasVal.int 0)
        = HasVal.int (flatScanSize fs
            (canonicalPath layout dir (checksums.getD idx "") ::
              extras.map (fun e => joinPath e (checksums.getD idx ""))))) := by
  refine ⟨?_, ?_, ?_⟩
  · intro fs0 d e
    by_cases h : (fsFind fs0 (markerPath e)).isSome <;>
      simp [extraCandPath, extraLayoutOf, h]
  · intro fs0 fs extras d cur
    constructor
    · intro h
      by_cases he : extras.isEmpty <;> simp [resolveExtras, he, h]
    · intro hnone
      rw [resolveExtras, find?_map_cand fs0 fs d extras]
      by_cases he : extras.isEmpty
      · rw [if_pos he]
        have hemp : extras = [] := by simpa using he
        subst hemp
        rfl
      · rw [if_neg he, if_neg (by simp [hnone])]
        cases hf : extras.find?
            (fun e => (fsFind fs (extraCandPath fs0 d e)).isSome) <;>
          simp [hf]
  · intro layout dir extras fs promised checksums idx hidx hnp
    rw [has_buffers_core layout dir extras fs promised checksums idx hidx, hnp]
    rfl

/-- C7 witness: the amended resolution at a concrete marker-carrying extra
directory (GET side), and the flat-only `/has` behaviour at the same
state. -/
theorem read_extras_layout_amended_witness :
    resolveExtras [("E/.HASHSERVER_PREFIX", [49, 10])] [("E/ab/abcd", [5])]
      ["E"] "abcd" "D/abcd" = "E/ab/abcd" := by
  have h := (read_extras_layout_amended.2.1 [("E/.HASHSERVER_PREFIX", [49, 10])]
    [("E/ab/abcd", [5])] ["E"] "abcd" "D/abcd").2 (by decide)
  rw [h]
  decide

/-! ## The promise registry and the promise-aware retry loop (C5)

Shallow embedding of `PromiseRegistry` and `PromiseAwareResponseMixin`
(hashserver.py, lines 463-598) for the linear lifecycle of a single
promise: `add` is called once at time `addTime` with TTL `ttl` (the
registry stores `expires_at = addTime + ttl`), `resolve` fires at time
`resolveAt` if ever, and the opportunistic sweep removes the entry at its
expiry.  Time is a `Nat` (`time.monotonic`). -/

/-- The promise TTL (hashserver.py, line 210: 10 minutes in seconds). -/
def PROMISE_TTL_SECONDS : Nat := 600

/-- The registry entry for the digest as observed at time `t`: the stored
`expires_at`, or `none` once the promise was resolved (`resolve` pops the
entry) or has expired (`_cleanup_locked` / `wait_for` pop it). -/
def entryAt (addTime ttl : Nat) (resolveAt : Option Nat) (t : Nat) : Option Nat :=
  match resolveAt with
  | some r =>
    if r ≤ t then none
    else if addTime + ttl ≤ t then none
    else some (addTime + ttl)
  | none => if addTime + ttl ≤ t then none else some (addTime + ttl)

/-- Shallow embedding of `PromiseRegistry.wait_for` (hashserver.py, lines
571-595) under the linear single-promise schedule: called at time `now`
with registry entry `entry`, it returns `false` immediately when there is
no entry or the entry has expired, waits otherwise, returns `true` when
the resolve event fires before `expires_at`, and `false` when the
`asyncio.wait_for` timeout fires first (popping the entry). -/
def wait_for (entry : Option Nat) (resolveAt : Option Nat) (now : Nat) : Bool :=
  match entry with
  | none => false
  | some exp =>
    if exp ≤ now then false
    else
      match resolveAt with
      | none => false
      | some r => decide (r < exp)

/-- The time at which `wait_for` returns: immediately when it does not
wait, at the resolve event when signalled, at `expires_at` when the
timeout fires. -/
def wait_for_time (entry : Option Nat) (resolveAt : Option Nat) (now : Nat) : Nat :=
  match entry with
  | none => now
  | some exp =>
    if exp ≤ now then now
    else
      match resolveAt with
      | none => exp
      | some r => if r < exp then max now r else exp

/-- Outcome of a promise-aware GET dispatch. -/
inductive PromiseGetOutcome where
  | served (retried : Bool)
  | notFound
  deriving DecidableEq, Repr

/-- Shallow embedding of the `PromiseAwareResponseMixin.__call__` loop
(hashserver.py, lines 468-476): the wrapped response is attempted
(`found1` says whether path resolution succeeds); on `FileNotFoundError`
the handler asks `wait_for` whether to retry; a `false` re-raises (404); a
`true` retries the lookup (`found2`), and a second failure re-raises
because the resolved promise has been consumed. -/
def promiseAwareCall (found1 found2 : Bool) (entry resolveAt : Option Nat)
    (now : Nat) : PromiseGetOutcome × Nat :=
  if found1 then (PromiseGetOutcome.served false, now)
  else if wait_for entry resolveAt now then
    if found2 then (PromiseGetOutcome.served true, wait_for_time entry resolveAt now)
    else (PromiseGetOutcome.notFound, wait_for_time entry resolveAt now)
  else (PromiseGetOutcome.notFound, wait_for_time entry resolveAt now)

/-- C5: after a PUT /promise/D, a GET whose path resolution fails does not
404 while the promise is pending: (a) `wait_for` returns the retry signal
exactly when the promise is live at the call and the resolve event fires
before the TTL expiry; (b) whenever the promise-aware GET returns
not-found, the promise registry no longer holds a live entry for the
digest at the moment of that return — the promise never existed, its TTL
elapsed unresolved, or it was resolved and consumed. -/
theorem promise_wait_semantics (addTime ttl : Nat) (resolveAt : Option Nat)
    (now : Nat) :
    (wait_for (entryAt addTime ttl resolveAt now) resolveAt now = true ↔
      (now < addTime + ttl ∧
        ∃ r, resolveAt = some r ∧ now < r ∧ r < addTime + ttl)) ∧
    (∀ found1 found2,
      (promiseAwareCall found1 found2 (entryAt addTime ttl resolveAt now)
          resolveAt now).1 = PromiseGetOutcome.notFound →
      entryAt addTime ttl resolveAt
        (promiseAwareCall found1 found2 (entryAt addTime ttl resolveAt now)
          resolveAt now).2 = none) := by
  constructor
  · cases resolveAt with
    | none =>
      by_cases hexp : addTime + ttl ≤ now <;>
        simp [entryAt, wait_for, hexp]
    | some r =>
      by_cases hr : r ≤ now
      · simp [entryAt, wait_for, hr]
        try omega
      · by_cases hexp : addTime + ttl ≤ now
        · simp [entryAt, wait_for, hr, hexp]
          try omega
        · simp [entryAt, wait_for, hr, hexp]
          try omega
  · intro found1 found2 hnf
    by_cases h1 : found1
    · simp [promiseAwareCall, h1] at hnf
    · cases resolveAt with
      | none =>
        by_cases hexp : addTime + ttl ≤ now <;>
          simp [promiseAwareCall, entryAt, wait_for, wait_for_time, h1, hexp]
      | some r =>
        by_cases hr : r ≤ now
        · simp [promiseAwareCall, entryAt, wait_for, wait_for_time, h1, hr]
          try omega
        · by_cases hexp : addTime + ttl ≤ now
          · simp [promiseAwareCall, entryAt, wait_for, wait_for_time, h1, hr, hexp]
            try omega
          · by_cases hrexp : r < addTime + ttl
            · by_cases h2 : found2
              · simp [promiseAwareCall, entryAt, wait_for, wait_for_time, h1, hr,
                  hexp, hrexp, h2] at hnf
              · simp [promiseAwareCall, entryAt, wait_for, wait_for_time, h1, hr,
                  hexp, hrexp, h2]
                try omega
            · simp [promiseAwareCall, entryAt, wait_for, wait_for_time, h1, hr,
                hexp, hrexp]
              try omega

/-- C5 witness: the promise semantics at a concrete schedule: promise
added at time 0 with TTL 10, resolved at time 4, GET arriving at time 2
with a failing first lookup and a succeeding retry; and a second GET at
time 2 whose retry also fails, whose 404 happens with the registry entry
gone. -/
theorem promise_wait_semantics_witness :
    (wait_for (entryAt 0 10 (some 4) 2) (some 4) 2 = true ↔
      (2 < 0 + 10 ∧ ∃ r, (some 4 : Option Nat) = some r ∧ 2 < r ∧ r < 0 + 10)) ∧
    entryAt 0 10 (some 4)
      (promiseAwareCall false false (entryAt 0 10 (some 4) 2) (some 4) 2).2
      = none :=
  ⟨(promise_wait_semantics 0 10 (some 4) 2).1,
   (promise_wait_semantics 0 10 (some 4) 2).2 false false (by decide)⟩
